import Mathlib

/-!
Verification of the `redis-type` wrapper library (damirka/redis-type).

The repository is a thin adapter mapping JavaScript collection methods onto
Redis LIST / HASH / SET commands, with optional JSON transcoding.  This file
gives a shallow embedding of:

* the dynamic-value checks of the `Wrapper` constructor (`src/lib/wrapper.js`),
* the JSON codec used by `lib/json.js` (a model of the JavaScript builtins
  `JSON.stringify` / `JSON.parse`, which the repo re-exports verbatim),
* the Redis list primitives assumed by the spec (closed-interval `LRANGE`,
  `LSET` with out-of-range rejection, `LREM 0` removing all equal elements,
  `LPUSH` prepending one argument at a time, `LINSERT AFTER` with the pivot
  taken as an index, per the module documentation of `insertAfter`),
* the adapter methods `slice`, `unshift`, `setElementAt`, `splice`
  (`src/lib/list.js`, latest revision), `Hash.set/get/has` (`src/lib/hash.js`)
  and `Set.has` (`src/src/set.ts`, `src/lib/set.js`).

Machine integers of the source are modelled as `Int`/`Nat`; fallible calls
return `Option`/`Except`; the command stream that `splice` issues is recorded
as an explicit trace.
-/

/-! ## A model of the JavaScript dynamic values seen by the Wrapper constructor -/

/-- Dynamic JavaScript value, as far as the constructor checks of
`src/lib/wrapper.js` can distinguish them.  `obj id` stands for any
non-callable object reference (a Redis client instance, for example). -/
inductive JSValue where
  | undefined
  | null
  | bool (b : Bool)
  | num (n : Int)
  | str (s : String)
  | obj (id : Nat)
  deriving DecidableEq, Repr

namespace JSValue

/-- JavaScript truthiness of a value (`Boolean(v)`). -/
def truthy : JSValue → Bool
  | .undefined => false
  | .null => false
  | .bool b => b
  | .num n => n != 0
  | .str s => s != ""
  | .obj _ => true

/-- The JavaScript `!` operator: boolean negation of truthiness. -/
def jsNot (v : JSValue) : JSValue := .bool (!v.truthy)

/-- JavaScript `===`: same type and same value (object identity for objects). -/
def strictEq : JSValue → JSValue → JSValue
  | .undefined, .undefined => .bool true
  | .null, .null => .bool true
  | .bool a, .bool b => .bool (a == b)
  | .num a, .num b => .bool (a == b)
  | .str a, .str b => .bool (a == b)
  | .obj a, .obj b => .bool (a == b)
  | _, _ => .bool false

/-- `v instanceof Object`: true exactly for object references (primitives and
`null`/`undefined` are not instances of `Object`). -/
def isObject : JSValue → Bool
  | .obj _ => true
  | _ => false

/-- `v.constructor` for a non-nullish value: every primitive wrapper and every
object exposes its constructor function, itself a (truthy) object.  On
`null`/`undefined` the property access would throw; the source only reads it
behind a short-circuit that rules those out, and the model returns
`undefined` there. -/
def constructorOf : JSValue → JSValue
  | .undefined => .undefined
  | .null => .undefined
  | _ => .obj 0

/-- Is the value a strict boolean (`true` or `false`)? -/
def isBool : JSValue → Bool
  | .bool _ => true
  | _ => false

end JSValue

/-! ## The Wrapper constructor (`src/lib/wrapper.js`, all revisions identical) -/

/-- The two validation errors the constructor can throw. -/
inductive CtorError where
  | invalidClient
  | invalidKey
  deriving DecidableEq, Repr

/-- The state a successfully constructed wrapper holds. -/
structure WrapperObj where
  client : JSValue
  key : JSValue
  useJSON : Bool
  deriving DecidableEq, Repr

/-- `!client || !(client instanceof Object)` — the client validation test. -/
def clientCheckFails (client : JSValue) : Bool :=
  (client.jsNot).truthy || !client.isObject

/-- The string-type half of the key check, exactly as written in the source:
`!key.constructor === 'String'`.  By JavaScript precedence this negates
`key.constructor` first and compares the resulting boolean with the string
`'String'`. -/
def keyTypePart (key : JSValue) : Bool :=
  ((key.constructorOf.jsNot).strictEq (.str "String")).truthy

/-- `!key || !key.constructor === 'String'` — the key validation test, with
the short-circuit of `||` made explicit (so `key.constructor` is only read on
truthy keys, as in the source). -/
def keyCheckFails (key : JSValue) : Bool :=
  if (key.jsNot).truthy then true else keyTypePart key

/-- The `Wrapper` constructor: validate the client, validate the key, then
freeze `client`, `key` and `useJSON` on the instance. -/
def wrapperNew (client key : JSValue) (useJSON : Bool) : Except CtorError WrapperObj :=
  if clientCheckFails client then .error .invalidClient
  else if keyCheckFails key then .error .invalidKey
  else .ok ⟨client, key, useJSON⟩

/-- Construction with the `useJSON` argument omitted: the source declares the
parameter as `useJSON = false`. -/
def wrapperNewDefault (client key : JSValue) : Except CtorError WrapperObj :=
  wrapperNew client key false

/-- The constructor of the TypeScript `Base` class (`src/README.md` lines
49–70, extended by the `src/src` adapters): parameter properties only, an
empty body — it performs no validation and never throws, whatever the
client and key are (the TypeScript annotations are erased at runtime). -/
def baseNewTS (client key : JSValue) (useJSON : Bool) : Except CtorError WrapperObj :=
  .ok ⟨client, key, useJSON⟩

/-- TypeScript `Base` construction with `useJSON` omitted: the parameter is
declared `useJSON: boolean = false`. -/
def baseNewTSDefault (client key : JSValue) : Except CtorError WrapperObj :=
  baseNewTS client key false

/-! ## A model of the JSON codec (`lib/json.js` re-exports `JSON.stringify` /
`JSON.parse`; the spec assumes a standard lossless text serialization).

Numbers are modelled as integers and control characters inside strings are
carried verbatim; quotes and backslashes are escaped exactly as
`JSON.stringify` does.  The printer emits no whitespace, as the builtin does
with no spacing argument. -/

mutual
/-- A serializable JavaScript value. -/
inductive Json where
  | null
  | bool (b : Bool)
  | num (n : Int)
  | str (s : String)
  | arr (elems : JsonList)
  | obj (fields : JsonObj)
  deriving DecidableEq

/-- The elements of a JSON array. -/
inductive JsonList where
  | nil
  | cons (hd : Json) (tl : JsonList)
  deriving DecidableEq

/-- The fields of a JSON object, in insertion order. -/
inductive JsonObj where
  | nil
  | cons (key : String) (val : Json) (tl : JsonObj)
  deriving DecidableEq
end

/-- Decimal digit to character. -/
def digitCh (d : Nat) : Char := Char.ofNat (48 + d)

/-- Little-endian decimal digits of `n`, with enough fuel to exhaust it
(structural recursion so that concrete values reduce in the kernel). -/
def natDigitsRev (fuel n : Nat) : List Char :=
  match fuel with
  | 0 => []
  | f + 1 => if n = 0 then [] else digitCh (n % 10) :: natDigitsRev f (n / 10)

/-- Decimal representation of a natural number, most significant digit first
(`String(n)` for a non-negative integer). -/
def natToChars (n : Nat) : List Char :=
  if n = 0 then ['0'] else (natDigitsRev n n).reverse

/-- Decimal representation of an integer. -/
def intChars (n : Int) : List Char :=
  if n < 0 then '-' :: natToChars n.natAbs else natToChars n.toNat

/-- String-body escaping of one character: `JSON.stringify` escapes the
quote and the backslash (control characters are modelled verbatim). -/
def escChar (c : Char) : List Char :=
  if c = '"' ∨ c = '\\' then ['\\', c] else [c]

/-- Escape a whole string body. -/
def escStr : List Char → List Char
  | [] => []
  | c :: cs => escChar c ++ escStr cs

/-- The characters of a keyword literal. -/
def kwChars (w : String) : List Char := w.data

mutual
/-- Characters `JSON.stringify` emits for a value. -/
def strVal : Json → List Char
  | .null => kwChars "null"
  | .bool true => kwChars "true"
  | .bool false => kwChars "false"
  | .num n => intChars n
  | .str s => '"' :: (escStr s.data ++ ['"'])
  | .arr l => '[' :: strArr l
  | .obj o => '{' :: strObj o

/-- Array contents after the opening bracket. -/
def strArr : JsonList → List Char
  | .nil => [']']
  | .cons h t => strVal h ++ strArrTail t

/-- Array contents after the first element. -/
def strArrTail : JsonList → List Char
  | .nil => [']']
  | .cons h t => ',' :: (strVal h ++ strArrTail t)

/-- Object contents after the opening brace. -/
def strObj : JsonObj → List Char
  | .nil => ['}']
  | .cons k v t => '"' :: (escStr k.data ++ ['"', ':']) ++ strVal v ++ strObjTail t

/-- Object contents after the first field. -/
def strObjTail : JsonObj → List Char
  | .nil => ['}']
  | .cons k v t => ',' :: ('"' :: (escStr k.data ++ ['"', ':']) ++ strVal v ++ strObjTail t)
end

/-- `JSON.stringify` on the model values. -/
def Json.stringify (v : Json) : String := String.mk (strVal v)

/-- Longest digit prefix of the input together with the rest. -/
def takeDigits : List Char → List Char × List Char
  | [] => ([], [])
  | c :: cs =>
    if c.isDigit then
      let p := takeDigits cs
      (c :: p.1, p.2)
    else ([], c :: cs)

/-- Numeric value of a most-significant-first digit string. -/
def digitsVal (ds : List Char) : Nat :=
  ds.foldl (fun acc c => 10 * acc + (c.toNat - 48)) 0

/-- Parse a string body up to and including the closing quote, undoing the
escapes `escChar` introduces. -/
def parseStrBody : List Char → Option (List Char × List Char)
  | [] => none
  | c :: cs =>
    if c = '"' then some ([], cs)
    else if c = '\\' then
      match cs with
      | [] => none
      | d :: cs2 =>
        match parseStrBody cs2 with
        | some p => some (d :: p.1, p.2)
        | none => none
    else
      match parseStrBody cs with
      | some p => some (c :: p.1, p.2)
      | none => none

/-- One step of the value parser, parameterised by the continuations used for
nested values, array tails and object tails. -/
def parseValStep
    (pv : List Char → Option (Json × List Char))
    (pa : List Char → Option (JsonList × List Char))
    (po : List Char → Option (JsonObj × List Char)) :
    List Char → Option (Json × List Char)
  | [] => none
  | c :: cs =>
    if c = 'n' then
      match cs with
      | 'u' :: 'l' :: 'l' :: r => some (.null, r)
      | _ => none
    else if c = 't' then
      match cs with
      | 'r' :: 'u' :: 'e' :: r => some (.bool true, r)
      | _ => none
    else if c = 'f' then
      match cs with
      | 'a' :: 'l' :: 's' :: 'e' :: r => some (.bool false, r)
      | _ => none
    else if c = '"' then
      match parseStrBody cs with
      | some p => some (.str (String.mk p.1), p.2)
      | none => none
    else if c = '[' then
      match cs with
      | [] => none
      | c2 :: cs2 =>
        if c2 = ']' then some (.arr .nil, cs2)
        else
          match pv (c2 :: cs2) with
          | some (v, r1) =>
            match pa r1 with
            | some (t, r2) => some (.arr (.cons v t), r2)
            | none => none
          | none => none
    else if c = '{' then
      match cs with
      | [] => none
      | c2 :: cs2 =>
        if c2 = '}' then some (.obj .nil, cs2)
        else if c2 = '"' then
          match parseStrBody cs2 with
          | some kp =>
            match kp.2 with
            | ':' :: r2 =>
              match pv r2 with
              | some (v, r3) =>
                match po r3 with
                | some (t, r4) => some (.obj (.cons (String.mk kp.1) v t), r4)
                | none => none
              | none => none
            | _ => none
          | none => none
        else none
    else if c = '-' then
      match takeDigits cs with
      | ([], _) => none
      | (ds, r) => some (.num (-(digitsVal ds : Int)), r)
    else if c.isDigit then
      let p := takeDigits (c :: cs)
      some (.num (digitsVal p.1), p.2)
    else none

/-- One step of the array-tail parser: a `]` ends the array, a `,` demands a
further value. -/
def parseArrTailStep
    (pv : List Char → Option (Json × List Char))
    (pa : List Char → Option (JsonList × List Char)) :
    List Char → Option (JsonList × List Char)
  | [] => none
  | c :: cs =>
    if c = ']' then some (.nil, cs)
    else if c = ',' then
      match pv cs with
      | some (v, r1) =>
        match pa r1 with
        | some (t, r2) => some (.cons v t, r2)
        | none => none
      | none => none
    else none

/-- One step of the object-tail parser. -/
def parseObjTailStep
    (pv : List Char → Option (Json × List Char))
    (po : List Char → Option (JsonObj × List Char)) :
    List Char → Option (JsonObj × List Char)
  | [] => none
  | c :: cs =>
    if c = '}' then some (.nil, cs)
    else if c = ',' then
      match cs with
      | [] => none
      | c2 :: cs2 =>
        if c2 = '"' then
          match parseStrBody cs2 with
          | some kp =>
            match kp.2 with
            | ':' :: r2 =>
              match pv r2 with
              | some (v, r3) =>
                match po r3 with
                | some (t, r4) => some (.cons (String.mk kp.1) v t, r4)
                | none => none
              | none => none
            | _ => none
          | none => none
        else none
    else none

/-- The fuelled recursive knot of the three parsers.  Every recursive descent
consumes at least one character, so fuel `length + 1` always suffices. -/
def parsersAt : Nat →
    (List Char → Option (Json × List Char)) ×
    (List Char → Option (JsonList × List Char)) ×
    (List Char → Option (JsonObj × List Char))
  | 0 => (fun _ => none, fun _ => none, fun _ => none)
  | fuel + 1 =>
    let p := parsersAt fuel
    (parseValStep p.1 p.2.1 p.2.2, parseArrTailStep p.1 p.2.1, parseObjTailStep p.1 p.2.2)

/-- The fuelled value parser. -/
def parseVal (fuel : Nat) : List Char → Option (Json × List Char) := (parsersAt fuel).1

/-- The fuelled array-tail parser. -/
def parseArrTail (fuel : Nat) : List Char → Option (JsonList × List Char) := (parsersAt fuel).2.1

/-- The fuelled object-tail parser. -/
def parseObjTail (fuel : Nat) : List Char → Option (JsonObj × List Char) := (parsersAt fuel).2.2

/-- `JSON.parse` on the model: parse one value and require the input to be
consumed entirely. -/
def Json.parse (s : String) : Option Json :=
  match parseVal (s.length + 1) s.data with
  | some (v, []) => some v
  | _ => none

/-- The input does not begin with a decimal digit (so a preceding number
cannot greedily swallow it). -/
def noDigitHead : List Char → Prop
  | [] => True
  | c :: _ => c.isDigit = false

/-! ## The Redis primitives the adapters call (external collaborators; modelled
from their documented semantics as the spec assumes them).  A list value is
the sequence of stored strings.  Indices the adapters compute are analysed at
non-negative positions (`LSET`/`LINSERT` are issued by `setElementAt` and
`splice` with non-negative indices); `LRANGE` gets the full closed-interval
semantics with negative indices counting from the tail. -/

/-- `LRANGE key start stop`: closed interval, negative indices from the tail,
clamped at both ends, empty when the normalised start exceeds the normalised
stop. -/
def lrange (start stop : Int) (l : List String) : List String :=
  let len : Int := l.length
  let s := max (if start < 0 then len + start else start) 0
  let e := min (if stop < 0 then len + stop else stop) (len - 1)
  if s ≤ e then (l.drop s.toNat).take (e - s + 1).toNat else []

/-- The error `LSET` replies with on a bad index. -/
inductive ListErr where
  | indexOutOfRange
  deriving DecidableEq, Repr

/-- `LSET key i v`: overwrite position `i`, rejecting an out-of-range index. -/
def lset (i : Nat) (v : String) (l : List String) : Except ListErr (List String) :=
  if i < l.length then .ok (l.set i v) else .error .indexOutOfRange

/-- `LREM key 0 v`: remove every element equal to `v`. -/
def lrem0 (v : String) (l : List String) : List String :=
  l.filter (· ≠ v)

/-- `LINSERT key AFTER pivot v` with the pivot read as an index, as the
module documentation of `insertAfter` states ("insert element after the
element with given index"); out of range, the list is untouched. -/
def linsertAfterIdx (i : Nat) (v : String) (l : List String) : List String :=
  if i < l.length then l.take (i + 1) ++ v :: l.drop (i + 1) else l

/-- `LPUSH key v₁ … vₙ`: prepend the arguments one at a time, each to the
current head. -/
def lpushMany (els : List String) (l : List String) : List String :=
  els.foldl (fun acc e => e :: acc) l

/-- A Redis hash value: an unordered field-to-stored-string map. -/
def HashState : Type := String → Option String

/-- `HSET`: upsert one field of a hash. -/
def hset (f v : String) (h : HashState) : HashState :=
  fun x => if x = f then some v else h x

/-- `HGET`: the stored string of a field, if present. -/
def hget (f : String) (h : HashState) : Option String :=
  h f

/-- `HEXISTS`, as the raw `0`/`1` reply the spec describes the primitive
returning. -/
def hexistsReply (f : String) (h : HashState) : JSValue :=
  .num (if (h f).isSome then 1 else 0)

/-- `SISMEMBER`, as the raw `0`/`1` reply the spec describes the primitive
returning. -/
def sismemberReply (el : String) (s : List String) : JSValue :=
  .num (if el ∈ s then 1 else 0)

/-! ## Hash adapter (`src/lib/hash.js`) and Set adapter (`src/src/set.ts`,
`src/lib/set.js`) -/

/-- `Hash.set(key, value)` with `useJSON = true`: store `toJSON(value)`. -/
def hashSetJson (k : String) (v : Json) (h : HashState) : HashState :=
  hset k (Json.stringify v) h

/-- `Hash.get(key)` with `useJSON = true`: `HGET` then `JSON.parse`.  An
absent field replies null, and `JSON.parse(null)` evaluates to null. -/
def hashGetJson (k : String) (h : HashState) : Option Json :=
  match hget k h with
  | some raw => Json.parse raw
  | none => some Json.null

/-- `Hash.has(key)`: the `HEXISTS` reply coerced with `!!` to a strict
boolean. -/
def hashHas (k : String) (h : HashState) : JSValue :=
  (hexistsReply k h).jsNot.jsNot

/-- `Set.has(el)`: the `SISMEMBER` reply forwarded with no coercion. -/
def setHas (el : String) (s : List String) : JSValue :=
  sismemberReply el s

/-! ## List adapter (`src/lib/list.js`, latest revision) -/

/-- The argument normalisation of `List.slice`, mirroring its `switch`:
every `end === null` case sends `-1`, otherwise `end - 1`; `begin` passes
through (the `begin === 0` case re-assigns `begin = 0`). -/
def sliceArgs (begin' : Int) (endOpt : Option Int) : Int × Int :=
  match endOpt with
  | none =>
    if begin' < 0 then (begin', -1)
    else if begin' = 0 then (0, -1)
    else (begin', -1)
  | some e => (begin', e - 1)

/-- `List.slice` with `useJSON = false`: normalise the arguments and forward
to `LRANGE`. -/
def listSliceRaw (begin' : Int) (endOpt : Option Int) (store : List String) : List String :=
  lrange (sliceArgs begin' endOpt).1 (sliceArgs begin' endOpt).2 store

/-- `List.slice` with `useJSON = true`: the same `LRANGE` call followed by
`parseArray` (element-wise `JSON.parse`). -/
def listSliceJson (begin' : Int) (endOpt : Option Int) (store : List String) : Option (List Json) :=
  (lrange (sliceArgs begin' endOpt).1 (sliceArgs begin' endOpt).2 store).mapM Json.parse

/-- `List.unshift(...els)` with `useJSON = false`: reverse the arguments,
then `LPUSH` them one at a time. -/
def listUnshiftRaw (els : List String) (store : List String) : List String :=
  lpushMany els.reverse store

/-- `List.unshift(...els)` with `useJSON = true`: reverse, `toJSON` each,
then `LPUSH`. -/
def listUnshiftJson (els : List Json) (store : List String) : List String :=
  lpushMany (els.reverse.map Json.stringify) store

/-- `List.setElementAt(index, el)` with `useJSON = false` (latest revision):
forward to `LSET`. -/
def listSetElementAtRaw (i : Nat) (el : String) (store : List String) :
    Except ListErr (List String) :=
  lset i el store

/-- `List.setElementAt(index, el)` with `useJSON = true` (latest revision):
`LSET` the encoded value. -/
def listSetElementAtJson (i : Nat) (el : Json) (store : List String) :
    Except ListErr (List String) :=
  lset i (Json.stringify el) store

/-- What `prom(method)` of the first revision returns: the promisified
client command bound to the key — a function value, not yet invoked. -/
structure BoundCommand where
  method : String
  key : String
  deriving DecidableEq, Repr

/-- Revision-1 `prom`: extra arguments beyond the method name are ignored by
the function's arity. -/
def promV1 (key method : String) : BoundCommand :=
  { method := method, key := key }

/-- Revision-1 `List.setElementAt(index, el)`: `return this.prom('lset',
index, el);` — the bound command is returned without ever being invoked, so
no `LSET` reaches the store. -/
def setElementAtV1 (key : String) (index : Int) (el : String) : BoundCommand :=
  promV1 key "lset"

/-! ## `List.splice` (latest revision) -/

/-- A Redis command as `splice` issues it (the `multi`/`exec` lines of the
source never invoke the bound command — the missing call parentheses — so no
transaction command appears). -/
inductive RCmd where
  | lrange (start stop : Int)
  | lset (i : Nat) (v : String)
  | lrem (count : Int) (v : String)
  | linsert (pos : String) (pivot : Nat) (v : String)
  deriving DecidableEq, Repr

/-- The value `splice` always passes to `LREM`:
`this.json.toJSON('__DELETE__')`, independent of the serialization flag. -/
def sentinelJson : String := Json.stringify (Json.str "__DELETE__")

/-- The marking loop of `splice`: `setElementAt(i, '__DELETE__')` for
`i = start … start + n - 1`, with `sentinel` the value the flag makes
`setElementAt` store.  A rejected index aborts (the awaited call throws). -/
def markRange (sentinel : String) (start n : Nat) (store : List String) :
    Option (List String × List RCmd) :=
  match n with
  | 0 => some (store, [])
  | m + 1 =>
    match lset start sentinel store with
    | .ok st2 =>
      match markRange sentinel (start + 1) m st2 with
      | some p => some (p.1, RCmd.lset start sentinel :: p.2)
      | none => none
    | .error _ => none

/-- The insertion loop of `splice`: `insertAfter(start + counter, item)` with
the counter increasing by one per item; `encodedItems` already carry the
flag's encoding. -/
def insertPhase (start : Nat) (encodedItems : List String) (store : List String) :
    List String × List RCmd :=
  match encodedItems with
  | [] => (store, [])
  | it :: restItems =>
    let st2 := linsertAfterIdx start it store
    let p := insertPhase (start + 1) restItems st2
    (p.1, RCmd.linsert "after" start it :: p.2)

/-- The branch condition `deleteCount > 0 || deleteCount == null` of `splice`
(in JavaScript a null/undefined `deleteCount` fails the `>` but passes the
`== null`). -/
def spliceDeletes (deleteCount : Option Int) : Bool :=
  match deleteCount with
  | none => true
  | some n => decide (0 < n)

/-- The `end` argument `splice` passes to `slice`: nothing for a null
`deleteCount` (`slice(start)`), else `start + deleteCount`. -/
def spliceRangeEnd (start : Nat) (deleteCount : Option Int) : Option Int :=
  match deleteCount with
  | none => none
  | some n => some ((start : Int) + n)

/-- The common body of `List.splice(start, deleteCount, ...items)`: capture
the range with `slice`, mark it with the flag-encoded sentinel, bulk-remove
the JSON-encoded sentinel, insert the (already flag-encoded) items.  Returns
the raw captured range, the final store and the commands issued. -/
def spliceCore (sentinel : String) (start : Nat) (deleteCount : Option Int)
    (encodedItems : List String) (store : List String) :
    Option (List String × List String × List RCmd) :=
  if spliceDeletes deleteCount then
    let a := sliceArgs (start : Int) (spliceRangeEnd start deleteCount)
    let result := lrange a.1 a.2 store
    match markRange sentinel start result.length store with
    | some p =>
      let st3 := lrem0 sentinelJson p.1
      let ins := insertPhase start encodedItems st3
      some (result, ins.1, (RCmd.lrange a.1 a.2 :: p.2) ++ RCmd.lrem 0 sentinelJson :: ins.2)
    | none => none
  else
    let ins := insertPhase start encodedItems store
    some ([], ins.1, ins.2)

/-- `List.splice` with `useJSON = false`: the marking step stores the raw
`'__DELETE__'` literal and the items go in raw. -/
def spliceRaw (start : Nat) (deleteCount : Option Int) (items : List String)
    (store : List String) : Option (List String × List String × List RCmd) :=
  spliceCore "__DELETE__" start deleteCount items store

/-- `List.splice` with `useJSON = true`: the marking step stores the encoded
sentinel, the items are encoded, and the captured range is decoded
element-wise before being returned. -/
def spliceJ (start : Nat) (deleteCount : Option Int) (items : List Json)
    (store : List String) : Option (List Json × List String × List RCmd) :=
  match spliceCore sentinelJson start deleteCount (items.map Json.stringify) store with
  | some (rawResult, st, tr) =>
    match rawResult.mapM Json.parse with
    | some decoded => some (decoded, st, tr)
    | none => none
  | none => none

/-! ## The half-open slice semantics the spec claims (`Array.prototype.slice`,
stated from the spec's words for comparison with the code's translation). -/

/-- JavaScript `Array.prototype.slice` begin/end semantics: half-open
`[begin, end)`, negative indices counting from the tail, clamped to the
array. -/
def jsSlice (begin' : Int) (endOpt : Option Int) (l : List String) : List String :=
  let len : Int := l.length
  let s := if begin' < 0 then max (len + begin') 0 else min begin' len
  let e := match endOpt with
    | none => len
    | some e0 => if e0 < 0 then max (len + e0) 0 else min e0 len
  (l.drop s.toNat).take (e - s).toNat

/-- The shapes of the commands a `splice` run can issue. -/
def spliceCmdShape (sent : String) (c : RCmd) : Prop :=
  (∃ b e, c = RCmd.lrange b e) ∨ (∃ i, c = RCmd.lset i sent) ∨
    c = RCmd.lrem 0 sentinelJson ∨ (∃ i v, c = RCmd.linsert "after" i v)

/-! ## Lemmas: the Wrapper constructor checks -/

theorem clientCheckFails_eq (c : JSValue) : clientCheckFails c = !c.isObject := by
  cases c <;> simp [clientCheckFails, JSValue.jsNot, JSValue.truthy, JSValue.isObject]

theorem keyTypePart_eq_false (k : JSValue) : keyTypePart k = false := by
  cases k <;> rfl

theorem keyCheckFails_eq (k : JSValue) : keyCheckFails k = !k.truthy := by
  cases k with
  | bool b => cases b <;> rfl
  | num n =>
      by_cases h : n = 0 <;>
        simp [keyCheckFails, keyTypePart_eq_false, JSValue.jsNot, JSValue.truthy, h]
  | str s =>
      by_cases h : s = "" <;>
        simp [keyCheckFails, keyTypePart_eq_false, JSValue.jsNot, JSValue.truthy, h]
  | _ => rfl

/-! ## Lemmas: round-trip of the JSON codec -/

theorem digitCh_isDigit {d : Nat} (h : d < 10) : (digitCh d).isDigit = true := by
  interval_cases d <;> decide

theorem digitCh_toNat {d : Nat} (h : d < 10) : (digitCh d).toNat = 48 + d := by
  interval_cases d <;> decide

theorem natDigitsRev_eq : ∀ fuel n, n ≤ fuel → natDigitsRev fuel n = (Nat.digits 10 n).map digitCh := by
  intro fuel
  induction fuel with
  | zero =>
      intro n hn
      have : n = 0 := by omega
      subst this
      simp [natDigitsRev]
  | succ f ih =>
      intro n hn
      by_cases h0 : n = 0
      · subst h0; simp [natDigitsRev]
      · have hrec := ih (n / 10) (by omega)
        rw [natDigitsRev, if_neg h0, hrec, Nat.digits_def' (by norm_num : 1 < 10) (Nat.pos_of_ne_zero h0)]
        simp

theorem natToChars_isDigit (n : Nat) : ∀ c ∈ natToChars n, c.isDigit = true := by
  intro c hc
  unfold natToChars at hc
  by_cases h0 : n = 0
  · simp [h0] at hc
    subst hc; decide
  · rw [if_neg h0, natDigitsRev_eq n n le_rfl, List.mem_reverse, List.mem_map] at hc
    obtain ⟨d, hd, rfl⟩ := hc
    exact digitCh_isDigit (Nat.digits_lt_base (by norm_num) hd)

theorem natToChars_ne_nil (n : Nat) : natToChars n ≠ [] := by
  unfold natToChars
  by_cases h0 : n = 0
  · simp [h0]
  · rw [if_neg h0, natDigitsRev_eq n n le_rfl]
    simp [Nat.digits_ne_nil_iff_ne_zero, h0]

theorem digitsVal_natToChars (n : Nat) : digitsVal (natToChars n) = n := by
  by_cases h0 : n = 0
  · subst h0; rfl
  · unfold natToChars
    rw [if_neg h0, natDigitsRev_eq n n le_rfl]
    unfold digitsVal
    rw [List.foldl_reverse]
    have key : ∀ L : List Nat, (∀ d ∈ L, d < 10) →
        (L.map digitCh).foldr (fun c acc => 10 * acc + (c.toNat - 48)) 0 = Nat.ofDigits 10 L := by
      intro L
      induction L with
      | nil => intro _; simp [Nat.ofDigits]
      | cons d L ihL =>
          intro hL
          have hd : d < 10 := hL d (by simp)
          have := ihL (fun x hx => hL x (by simp [hx]))
          simp only [List.map_cons, List.foldr_cons, this, Nat.ofDigits_cons,
            digitCh_toNat hd]
          omega
    rw [key (Nat.digits 10 n) (fun d hd => Nat.digits_lt_base (by norm_num) hd),
      Nat.ofDigits_digits]

theorem takeDigits_append : ∀ (ds rest : List Char), (∀ c ∈ ds, c.isDigit = true) →
    noDigitHead rest → takeDigits (ds ++ rest) = (ds, rest) := by
  intro ds
  induction ds with
  | nil =>
      intro rest _ hrest
      cases rest with
      | nil => rfl
      | cons c cs =>
          simp only [List.nil_append, takeDigits]
          rw [if_neg (by simp [noDigitHead] at hrest; simp [hrest])]
  | cons c ds ih =>
      intro rest hds hrest
      have hdig : c.isDigit = true := hds c (by simp)
      have ihh := ih rest (fun x hx => hds x (by simp [hx])) hrest
      simp [takeDigits, hdig, ihh]

theorem parseStrBody_escStr : ∀ (l rest : List Char),
    parseStrBody (escStr l ++ '"' :: rest) = some (l, rest) := by
  intro l
  induction l with
  | nil =>
      intro rest
      show parseStrBody ([] ++ '"' :: rest) = some ([], rest)
      rw [List.nil_append, parseStrBody.eq_def]
      simp
  | cons c cs ih =>
      intro rest
      by_cases hc : c = '"' ∨ c = '\\'
      · have he : escChar c = ['\\', c] := by simp [escChar, hc]
        have hred : parseStrBody ('\\' :: c :: (escStr cs ++ '"' :: rest)) =
            match parseStrBody (escStr cs ++ '"' :: rest) with
            | some p => some (c :: p.1, p.2)
            | none => none := rfl
        simp only [escStr, he, List.cons_append, List.nil_append, List.append_assoc]
        rw [hred, ih rest]
      · have he : escChar c = [c] := by simp [escChar, hc]
        push_neg at hc
        have hred : parseStrBody (c :: (escStr cs ++ '"' :: rest)) =
            match parseStrBody (escStr cs ++ '"' :: rest) with
            | some p => some (c :: p.1, p.2)
            | none => none := by
          rw [parseStrBody.eq_def]
          simp [hc.1, hc.2]
        simp only [escStr, he, List.cons_append, List.nil_append, List.append_assoc]
        rw [hred, ih rest]

theorem isDigit_ne_specials {c : Char} (h : c.isDigit = true) :
    c ≠ 'n' ∧ c ≠ 't' ∧ c ≠ 'f' ∧ c ≠ '"' ∧ c ≠ '[' ∧ c ≠ '{' ∧ c ≠ '-' ∧ c ≠ ']' := by
  refine ⟨?_, ?_, ?_, ?_, ?_, ?_, ?_, ?_⟩ <;> · intro hc; subst hc; exact absurd h (by decide)

theorem stringMk_data (s : String) : String.mk s.data = s := rfl

theorem strVal_cons (v : Json) : ∃ c cs, strVal v = c :: cs ∧ c ≠ ']' := by
  cases v with
  | null => exact ⟨'n', _, rfl, by decide⟩
  | bool b => cases b with
    | false => exact ⟨'f', _, rfl, by decide⟩
    | true => exact ⟨'t', _, rfl, by decide⟩
  | num n =>
      cases n with
      | ofNat m =>
          have h1 : strVal (Json.num (Int.ofNat m)) = natToChars m := by
            show intChars (Int.ofNat m) = natToChars m
            have hcast : Int.ofNat m = (m : Int) := rfl
            unfold intChars
            rw [hcast, if_neg (by omega), Int.toNat_natCast]
          obtain ⟨c, cs, hnc⟩ := List.exists_cons_of_ne_nil (natToChars_ne_nil m)
          have hcd : c.isDigit = true := natToChars_isDigit m c (by rw [hnc]; exact List.mem_cons_self c cs)
          exact ⟨c, cs, by rw [h1, hnc], (isDigit_ne_specials hcd).2.2.2.2.2.2.2⟩
      | negSucc m =>
          refine ⟨'-', natToChars (m + 1), ?_, by decide⟩
          show intChars (Int.negSucc m) = '-' :: natToChars (m + 1)
          unfold intChars
          rw [if_pos (Int.negSucc_lt_zero m), Int.natAbs_negSucc]
  | str s => exact ⟨'"', _, rfl, by decide⟩
  | arr l => exact ⟨'[', _, rfl, by decide⟩
  | obj o => exact ⟨'{', _, rfl, by decide⟩

theorem strVal_length_pos (v : Json) : 0 < (strVal v).length := by
  obtain ⟨c, cs, h, _⟩ := strVal_cons v
  simp [h]

theorem strArrTail_length_pos (t : JsonList) : 0 < (strArrTail t).length := by
  cases t <;> simp [strArrTail]

theorem strObjTail_length_pos (o : JsonObj) : 0 < (strObjTail o).length := by
  cases o <;> simp [strObjTail]

theorem noDigitHead_strArrTail (t : JsonList) (rest : List Char) :
    noDigitHead (strArrTail t ++ rest) := by
  cases t <;> · show Char.isDigit _ = false; decide

theorem noDigitHead_strObjTail (o : JsonObj) (rest : List Char) :
    noDigitHead (strObjTail o ++ rest) := by
  cases o <;> · show Char.isDigit _ = false; decide

theorem parseVal_succ (fuel : Nat) :
    parseVal (fuel + 1) = parseValStep (parseVal fuel) (parseArrTail fuel) (parseObjTail fuel) := rfl

theorem parseArrTail_succ (fuel : Nat) :
    parseArrTail (fuel + 1) = parseArrTailStep (parseVal fuel) (parseArrTail fuel) := rfl

theorem parseObjTail_succ (fuel : Nat) :
    parseObjTail (fuel + 1) = parseObjTailStep (parseVal fuel) (parseObjTail fuel) := rfl

/-- The printer-parser round trip, simultaneously for values, array tails and
object tails, by induction on the parser's fuel.  Each recursive descent of
the parser consumes at least one character, so any fuel at least the input
length suffices. -/
theorem parse_round : ∀ fuel : Nat,
    (∀ (v : Json) (rest : List Char), (strVal v).length + rest.length ≤ fuel →
      noDigitHead rest → parseVal fuel (strVal v ++ rest) = some (v, rest)) ∧
    (∀ (t : JsonList) (rest : List Char), (strArrTail t).length + rest.length ≤ fuel →
      noDigitHead rest → parseArrTail fuel (strArrTail t ++ rest) = some (t, rest)) ∧
    (∀ (o : JsonObj) (rest : List Char), (strObjTail o).length + rest.length ≤ fuel →
      noDigitHead rest → parseObjTail fuel (strObjTail o ++ rest) = some (o, rest)) := by
  intro fuel
  induction fuel with
  | zero =>
      refine ⟨?_, ?_, ?_⟩
      · intro v rest hlen _
        exact absurd hlen (by have := strVal_length_pos v; omega)
      · intro t rest hlen _
        exact absurd hlen (by have := strArrTail_length_pos t; omega)
      · intro o rest hlen _
        exact absurd hlen (by have := strObjTail_length_pos o; omega)
  | succ fuel ih =>
      obtain ⟨ih1, ih2, ih3⟩ := ih
      refine ⟨?_, ?_, ?_⟩
      · intro v rest hlen hrest
        cases v with
        | null => exact rfl
        | bool b => cases b <;> exact rfl
        | num n =>
            cases n with
            | ofNat m =>
                have h1 : strVal (Json.num (Int.ofNat m)) = natToChars m := by
                  show intChars (Int.ofNat m) = natToChars m
                  have hcast : Int.ofNat m = (m : Int) := rfl
                  unfold intChars
                  rw [hcast, if_neg (by omega), Int.toNat_natCast]
                obtain ⟨c, ds, hnc⟩ := List.exists_cons_of_ne_nil (natToChars_ne_nil m)
                have hcd : c.isDigit = true :=
                  natToChars_isDigit m c (by rw [hnc]; exact List.mem_cons_self c ds)
                have hne := isDigit_ne_specials hcd
                rw [h1, hnc, List.cons_append, parseVal_succ]
                simp only [parseValStep]
                rw [if_neg hne.1, if_neg hne.2.1, if_neg hne.2.2.1, if_neg hne.2.2.2.1,
                  if_neg hne.2.2.2.2.1, if_neg hne.2.2.2.2.2.1, if_neg hne.2.2.2.2.2.2.1,
                  if_pos hcd]
                have : c :: (ds ++ rest) = natToChars m ++ rest := by rw [hnc, List.cons_append]
                rw [this, takeDigits_append (natToChars m) rest (natToChars_isDigit m) hrest]
                simp [digitsVal_natToChars]
            | negSucc m =>
                have h1 : strVal (Json.num (Int.negSucc m)) = '-' :: natToChars (m + 1) := by
                  show intChars (Int.negSucc m) = '-' :: natToChars (m + 1)
                  unfold intChars
                  rw [if_pos (Int.negSucc_lt_zero m), Int.natAbs_negSucc]
                have hred : ∀ X : List Char, parseVal (fuel + 1) ('-' :: X) =
                    (match takeDigits X with
                     | ([], _) => none
                     | (ds, r) => some (.num (-(digitsVal ds : Int)), r)) := fun _ => rfl
                rw [h1, List.cons_append, hred,
                  takeDigits_append (natToChars (m + 1)) rest (natToChars_isDigit (m + 1)) hrest]
                obtain ⟨c, ds, hnc⟩ := List.exists_cons_of_ne_nil (natToChars_ne_nil (m + 1))
                rw [hnc]
                have hval : digitsVal (c :: ds) = m + 1 := by
                  rw [← hnc, digitsVal_natToChars]
                simp only [hval]
                rw [Int.negSucc_eq]
                norm_num
        | str s =>
            have hred : ∀ X : List Char, parseVal (fuel + 1) ('"' :: X) =
                (match parseStrBody X with
                 | some p => some (.str (String.mk p.1), p.2)
                 | none => none) := fun _ => rfl
            show parseVal (fuel + 1) (('"' :: (escStr s.data ++ ['"'])) ++ rest) = _
            rw [List.cons_append, List.append_assoc, List.singleton_append, hred,
              parseStrBody_escStr]
        | arr l =>
            cases l with
            | nil => exact rfl
            | cons h t =>
                obtain ⟨c, cs, hh, hne⟩ := strVal_cons h
                have hlen1 : (strVal h).length + (strArrTail t ++ rest).length ≤ fuel := by
                  simp only [strVal, strArr, List.length_cons, List.length_append] at hlen ⊢
                  omega
                have hlen2 : (strArrTail t).length + rest.length ≤ fuel := by
                  have hp := strVal_length_pos h
                  simp only [strVal, strArr, List.length_cons, List.length_append] at hlen
                  omega
                have hred : ∀ (c2 : Char) (X : List Char), parseVal (fuel + 1) ('[' :: c2 :: X) =
                    (if c2 = ']' then some (.arr .nil, X)
                     else
                       match parseVal fuel (c2 :: X) with
                       | some (v, r1) =>
                         match parseArrTail fuel r1 with
                         | some (t, r2) => some (.arr (.cons v t), r2)
                         | none => none
                       | none => none) := fun _ _ => rfl
                show parseVal (fuel + 1) (('[' :: strArr (.cons h t)) ++ rest) = _
                rw [show strArr (.cons h t) = strVal h ++ strArrTail t from rfl, hh]
                simp only [List.cons_append, List.append_assoc]
                rw [hred, if_neg hne]
                rw [show c :: (cs ++ (strArrTail t ++ rest)) = strVal h ++ (strArrTail t ++ rest) by
                  rw [hh, List.cons_append]]
                rw [ih1 h (strArrTail t ++ rest) hlen1 (noDigitHead_strArrTail t rest)]
                simp only []
                rw [ih2 t rest hlen2 hrest]
        | obj o =>
            cases o with
            | nil => exact rfl
            | cons k v t =>
                have hlen1 : (strVal v).length + (strObjTail t ++ rest).length ≤ fuel := by
                  simp only [strVal, strObj, List.length_cons, List.length_append] at hlen ⊢
                  omega
                have hlen2 : (strObjTail t).length + rest.length ≤ fuel := by
                  have hp := strVal_length_pos v
                  simp only [strVal, strObj, List.length_cons, List.length_append] at hlen
                  omega
                have hred : ∀ X : List Char, parseVal (fuel + 1) ('{' :: '"' :: X) =
                    (match parseStrBody X with
                     | some kp =>
                       match kp.2 with
                       | ':' :: r2 =>
                         match parseVal fuel r2 with
                         | some (w, r3) =>
                           match parseObjTail fuel r3 with
                           | some (u, r4) => some (.obj (.cons (String.mk kp.1) w u), r4)
                           | none => none
                         | none => none
                       | _ => none
                     | none => none) := fun _ => rfl
                show parseVal (fuel + 1) (('{' :: strObj (.cons k v t)) ++ rest) = _
                rw [show strObj (.cons k v t) =
                  '"' :: (escStr k.data ++ ['"', ':']) ++ strVal v ++ strObjTail t from rfl]
                have harr : (('{' :: ('"' :: (escStr k.data ++ ['"', ':']) ++ strVal v ++ strObjTail t)) ++ rest)
                    = '{' :: '"' :: (escStr k.data ++ '"' :: (':' :: (strVal v ++ (strObjTail t ++ rest)))) := by
                  simp
                rw [harr, hred, parseStrBody_escStr]
                simp only []
                rw [ih1 v (strObjTail t ++ rest) hlen1 (noDigitHead_strObjTail t rest)]
                simp only []
                rw [ih3 t rest hlen2 hrest]
      · intro t rest hlen hrest
        cases t with
        | nil => exact rfl
        | cons h t =>
            obtain ⟨c, cs, hh, hne⟩ := strVal_cons h
            have hlen1 : (strVal h).length + (strArrTail t ++ rest).length ≤ fuel := by
              simp only [strArrTail, List.length_cons, List.length_append] at hlen ⊢
              omega
            have hlen2 : (strArrTail t).length + rest.length ≤ fuel := by
              have hp := strVal_length_pos h
              simp only [strArrTail, List.length_cons, List.length_append] at hlen
              omega
            have hred : ∀ X : List Char, parseArrTail (fuel + 1) (',' :: X) =
                (match parseVal fuel X with
                 | some (v, r1) =>
                   match parseArrTail fuel r1 with
                   | some (u, r2) => some (.cons v u, r2)
                   | none => none
                 | none => none) := fun _ => rfl
            show parseArrTail (fuel + 1) ((',' :: (strVal h ++ strArrTail t)) ++ rest) = _
            simp only [List.cons_append, List.append_assoc]
            rw [hred, ih1 h (strArrTail t ++ rest) hlen1 (noDigitHead_strArrTail t rest)]
            simp only []
            rw [ih2 t rest hlen2 hrest]
      · intro o rest hlen hrest
        cases o with
        | nil => exact rfl
        | cons k v t =>
            have hlen1 : (strVal v).length + (strObjTail t ++ rest).length ≤ fuel := by
              simp only [strObjTail, List.length_cons, List.length_append] at hlen ⊢
              omega
            have hlen2 : (strObjTail t).length + rest.length ≤ fuel := by
              have hp := strVal_length_pos v
              simp only [strObjTail, List.length_cons, List.length_append] at hlen
              omega
            have hred : ∀ X : List Char, parseObjTail (fuel + 1) (',' :: '"' :: X) =
                (match parseStrBody X with
                 | some kp =>
                   match kp.2 with
                   | ':' :: r2 =>
                     match parseVal fuel r2 with
                     | some (w, r3) =>
                       match parseObjTail fuel r3 with
                       | some (u, r4) => some (.cons (String.mk kp.1) w u, r4)
                       | none => none
                     | none => none
                   | _ => none
                 | none => none) := fun _ => rfl
            show parseObjTail (fuel + 1) ((',' :: ('"' :: (escStr k.data ++ ['"', ':']) ++ strVal v ++ strObjTail t)) ++ rest) = _
            have harr : ((',' :: ('"' :: (escStr k.data ++ ['"', ':']) ++ strVal v ++ strObjTail t)) ++ rest)
                = ',' :: '"' :: (escStr k.data ++ '"' :: (':' :: (strVal v ++ (strObjTail t ++ rest)))) := by
              simp
            rw [harr, hred, parseStrBody_escStr]
            simp only []
            rw [ih1 v (strObjTail t ++ rest) hlen1 (noDigitHead_strObjTail t rest)]
            simp only []
            rw [ih3 t rest hlen2 hrest]

/-- `JSON.parse` inverts `JSON.stringify` on every serializable value. -/
theorem Json.parse_stringify (v : Json) : Json.parse (Json.stringify v) = some v := by
  unfold Json.parse Json.stringify
  have hdata : (String.mk (strVal v)).data = strVal v := rfl
  have hlenv : (String.mk (strVal v)).length = (strVal v).length := rfl
  rw [hdata, hlenv]
  have h := (parse_round ((strVal v).length + 1)).1 v []
    (by simp) (by trivial)
  rw [List.append_nil] at h
  rw [h]

theorem sliceArgs_eq (b : Int) (endOpt : Option Int) :
    sliceArgs b endOpt = (b, match endOpt with | none => -1 | some e0 => e0 - 1) := by
  cases endOpt with
  | none =>
      by_cases h1 : b < 0
      · simp [sliceArgs, h1]
      · by_cases h2 : b = 0
        · simp [sliceArgs, h1, h2]
        · simp [sliceArgs, h1, h2]
  | some e0 => rfl

theorem take_drop_congr (l : List String) {A B C D : Nat} (hAC : A = C) (hBD : B = D) :
    (l.drop A).take B = (l.drop C).take D := by
  rw [hAC, hBD]

theorem take_nonpos_nil (K : Int) (hK : K ≤ 0) (xs : List String) : xs.take K.toNat = [] := by
  rw [Int.toNat_of_nonpos hK, List.take_zero]

theorem lrange_none_eq_jsSlice (b : Int) (l : List String) :
    lrange b (-1) l = jsSlice b none l := by
  unfold lrange jsSlice
  simp only []
  split_ifs <;>
    first
      | (exact take_drop_congr l (by omega) (by omega))
      | (exact (take_nonpos_nil _ (by omega) _).symm)

theorem lrange_some_eq_jsSlice (b e0 : Int) (l : List String) (h : e0 ≠ 0) :
    lrange b (e0 - 1) l = jsSlice b (some e0) l := by
  unfold lrange jsSlice
  simp only []
  split_ifs <;>
    first
      | (exact take_drop_congr l (by omega) (by omega))
      | (exact (take_nonpos_nil _ (by omega) _).symm)

/-! ## Helper lemmas for the splice command trace -/

theorem markRange_shape (sent : String) : ∀ (n start : Nat) (store : List String)
    (p : List String × List RCmd), markRange sent start n store = some p →
    ∀ c ∈ p.2, ∃ i, c = RCmd.lset i sent := by
  intro n
  induction n with
  | zero =>
      intro start store p hp c hc
      unfold markRange at hp
      cases hp
      simp at hc
  | succ m ih =>
      intro start store p hp c hc
      unfold markRange at hp
      split at hp
      · split at hp
        · cases hp
          rcases List.mem_cons.mp hc with hc1 | hc2
          · exact ⟨start, hc1⟩
          · exact ih (start + 1) _ _ (by assumption) c hc2
        · cases hp
      · cases hp

theorem insertPhase_shape : ∀ (items : List String) (start : Nat) (store : List String),
    ∀ c ∈ (insertPhase start items store).2, ∃ i v, c = RCmd.linsert "after" i v := by
  intro items
  induction items with
  | nil =>
      intro start store c hc
      simp [insertPhase] at hc
  | cons it rest ih =>
      intro start store c hc
      unfold insertPhase at hc
      rcases List.mem_cons.mp hc with hc1 | hc2
      · exact ⟨start, it, hc1⟩
      · exact ih (start + 1) _ c hc2

theorem spliceCore_shape (sent : String) (start : Nat) (dc : Option Int)
    (items store : List String) (out : List String × List String × List RCmd)
    (hout : spliceCore sent start dc items store = some out) :
    ∀ c ∈ out.2.2, spliceCmdShape sent c := by
  intro c hc
  unfold spliceCore at hout
  split at hout
  · simp only [] at hout
    split at hout
    · cases hout
      simp only [List.mem_append, List.mem_cons] at hc
      rcases hc with (hc1 | hc2) | hc3 | hc4
      · exact Or.inl ⟨_, _, hc1⟩
      · exact Or.inr (Or.inl (markRange_shape sent _ _ _ _ (by assumption) c hc2))
      · exact Or.inr (Or.inr (Or.inl hc3))
      · exact Or.inr (Or.inr (Or.inr (insertPhase_shape _ _ _ c hc4)))
    · cases hout
  · cases hout
    exact Or.inr (Or.inr (Or.inr (insertPhase_shape _ _ _ c hc)))

/-! ## Claim theorems -/

/-- C1: the claim states that `splice(start, deleteCount, ...items)` returns
the captured sub-range, removes exactly those elements and inserts the items
at position `start`, and in particular that `splice(1, 1, 'x')` on
`['a','b','c']` returns `['b']` and leaves `['a','x','c']`.  Evaluating the
embedded `splice` (serialization on) at that very input: the returned range
is `['b']` and the captured elements are removed, but the insertion lands
after the element now at position `start`, leaving `['a','c','x']` — not
`['a','x','c']` as the claim and the method's own documentation
(`Array.prototype.splice` behaviour) require. -/
theorem c1_splice_example_eval :
    spliceJ 1 (some 1) [Json.str "x"]
        [Json.stringify (Json.str "a"), Json.stringify (Json.str "b"), Json.stringify (Json.str "c")] =
      some ([Json.str "b"],
        [Json.stringify (Json.str "a"), Json.stringify (Json.str "c"), Json.stringify (Json.str "x")],
        [RCmd.lrange 1 1, RCmd.lset 1 sentinelJson, RCmd.lrem 0 sentinelJson,
          RCmd.linsert "after" 1 (Json.stringify (Json.str "x"))]) ∧
    ([Json.stringify (Json.str "a"), Json.stringify (Json.str "c"), Json.stringify (Json.str "x")] ≠
      [Json.stringify (Json.str "a"), Json.stringify (Json.str "x"), Json.stringify (Json.str "c")]) := by
  exact ⟨by decide, by decide⟩

/-- C2 (counterexample): the claim says `List.slice` implements half-open
`[begin, end)` semantics for every `begin` and `end`; at `end = 0` the
translation sends closed end `-1` (the tail), so `slice(0, 0)` on `['a']`
returns the whole list where half-open semantics require `[]`. -/
theorem c2_slice_end_zero_counterexample :
    listSliceRaw 0 (some 0) ["a"] = ["a"] ∧ jsSlice 0 (some 0) ["a"] = [] := by
  exact ⟨by decide, by decide⟩

/-- C2 (amended): `List.slice` translates its arguments exactly as stated
(omitted `end` becomes closed end `-1`, otherwise `end - 1`, `begin` passes
through), and this realises half-open `[begin, end)` semantics with negative
indices counting from the tail for every `begin` and every `end ≠ 0`
(`end = 0` instead returns the suffix from `begin`); the three quoted
examples hold. -/
theorem c2_slice_translation_halfopen :
    (∀ (b : Int) (endOpt : Option Int),
      sliceArgs b endOpt = (b, match endOpt with | none => -1 | some e0 => e0 - 1)) ∧
    (∀ (b : Int) (endOpt : Option Int) (store : List String),
      (∀ e0, endOpt = some e0 → e0 ≠ 0) → listSliceRaw b endOpt store = jsSlice b endOpt store) ∧
    listSliceRaw 1 none ["1", "2", "3", "4", "5"] = ["2", "3", "4", "5"] ∧
    listSliceRaw (-2) none ["1", "2", "3", "4", "5"] = ["4", "5"] ∧
    listSliceRaw 1 (some 3) ["1", "2", "3", "4", "5"] = ["2", "3"] := by
  refine ⟨sliceArgs_eq, ?_, by decide, by decide, by decide⟩
  intro b endOpt store hend
  show lrange (sliceArgs b endOpt).1 (sliceArgs b endOpt).2 store = jsSlice b endOpt store
  rw [sliceArgs_eq]
  cases endOpt with
  | none => exact lrange_none_eq_jsSlice b store
  | some e0 => exact lrange_some_eq_jsSlice b e0 store (hend e0 rfl)

/-- C2 (witness): the half-open equivalence applied at
`slice(1, 3)` on `[1,2,3,4,5]`. -/
theorem c2_slice_witness :
    listSliceRaw 1 (some 3) ["1", "2", "3", "4", "5"] =
      jsSlice 1 (some 3) ["1", "2", "3", "4", "5"] :=
  c2_slice_translation_halfopen.2.1 1 (some 3) ["1", "2", "3", "4", "5"]
    (fun e0 he => by cases he; decide)

/-- C3: `unshift(a, b)` reverses the argument order before the
prepend-one-at-a-time command, so `[a, b]` ends up at the head in that order,
and from an empty list `unshift(a, b)` then `slice()` yields `[a, b]` (with
the flag off on raw strings, and with the flag on through the codec). -/
theorem c3_unshift_order :
    (∀ (a b : String) (store : List String), listUnshiftRaw [a, b] store = a :: b :: store) ∧
    (∀ a b : String, listSliceRaw 0 none (listUnshiftRaw [a, b] []) = [a, b]) ∧
    (∀ (a b : Json) (store : List String),
      listUnshiftJson [a, b] store = Json.stringify a :: Json.stringify b :: store) ∧
    (∀ a b : Json, listSliceJson 0 none (listUnshiftJson [a, b] []) = some [a, b]) := by
  refine ⟨fun a b store => rfl, fun a b => rfl, fun a b store => rfl, fun a b => ?_⟩
  show List.mapM Json.parse (lrange (sliceArgs 0 none).1 (sliceArgs 0 none).2
      (lpushMany ([a, b].reverse.map Json.stringify) [])) = some [a, b]
  show List.mapM Json.parse [Json.stringify a, Json.stringify b] = some [a, b]
  simp [List.mapM, List.mapM.loop, Json.parse_stringify]

/-- C4: a list whose element at index 0 equals the sentinel literal (under
the flag's encoding) loses that element to `splice(1, 1)` even though only
index 1 was spliced: the `LREM`-based deletion removes every element equal
to the sentinel, not only the marked positions. -/
theorem c4_splice_sentinel_collision :
    spliceJ 1 (some 1) []
        [Json.stringify (Json.str "__DELETE__"), Json.stringify (Json.str "b"),
          Json.stringify (Json.str "c")] =
      some ([Json.str "b"], [Json.stringify (Json.str "c")],
        [RCmd.lrange 1 1, RCmd.lset 1 sentinelJson, RCmd.lrem 0 sentinelJson]) ∧
    (Json.stringify (Json.str "__DELETE__") ∉ [Json.stringify (Json.str "c")]) := by
  exact ⟨by decide, by decide⟩

/-- C5: the claim (and revisions 2/3 of the code, `lset` forwarding) says
`setElementAt(index, v)` with `index ≥ length` fails with the out-of-range
rejection and otherwise overwrites; but revision 1 (`src/lib/list.js` lines
149–151) returns `this.prom('lset', index, el)` without invoking it: the
call produces the bound, un-invoked command, no `LSET` reaches the store and
no `IndexOutOfRangeError` can surface.  The evaluation below contrasts the
two: revision 1 at the failing input yields a bare bound command, while the
forwarding embedding rejects `index = 5` on `['a']` and overwrites at
`index = 0`. -/
theorem c5_setElementAt_v1_eval :
    setElementAtV1 "k" 5 "x" = { method := "lset", key := "k" } ∧
    listSetElementAtRaw 5 "x" ["a"] = .error .indexOutOfRange ∧
    listSetElementAtRaw 0 "x" ["a"] = .ok ["x"] := by
  exact ⟨by decide, rfl, rfl⟩

/-- C6 (counterexample): the claim covers every adapter, but the adapters of
the TypeScript revision extend the `Base` class of `src/README.md` lines
49–70, whose constructor performs no validation: constructed with an absent
(`undefined`) client and the empty-string key it succeeds, raising neither
the invalid-client nor the invalid-key error the claim requires. -/
theorem c6_base_no_validation_counterexample :
    baseNewTS JSValue.undefined (JSValue.str "") false =
      .ok ⟨JSValue.undefined, JSValue.str "", false⟩ ∧
    baseNewTS JSValue.undefined (JSValue.str "") false ≠ .error .invalidClient ∧
    baseNewTS JSValue.undefined (JSValue.str "") false ≠ .error .invalidKey := by
  refine ⟨rfl, ?_, ?_⟩ <;> · intro h; cases h

/-- C6 (amended): adapters constructed through the `lib/wrapper.js`
constructor fail with the invalid-client error exactly when the client is
not an object (absent or wrong type), fail with the invalid-key error when
the key is the empty string, and succeed otherwise with the serialization
flag defaulting to off; the adapters of the TypeScript revision extend a
`Base` whose constructor performs no validation, so construction there
succeeds for every client and key, with the flag still defaulting to off. -/
theorem c6_wrapper_construction (c : JSValue) (s : String) (flag : Bool) :
    (wrapperNew c (.str s) flag =
      (if c.isObject = false then .error .invalidClient
       else if s = "" then .error .invalidKey
       else .ok ⟨c, .str s, flag⟩)) ∧
    wrapperNewDefault c (.str s) = wrapperNew c (.str s) false ∧
    (∀ key : JSValue, baseNewTS c key flag = .ok ⟨c, key, flag⟩) ∧
    baseNewTSDefault c (.str s) = baseNewTS c (.str s) false := by
  refine ⟨?_, rfl, fun key => rfl, rfl⟩
  unfold wrapperNew
  rw [clientCheckFails_eq, keyCheckFails_eq]
  by_cases hobj : c.isObject
  · by_cases hs : s = ""
    · subst hs; simp [hobj, JSValue.truthy]
    · simp [hobj, hs, JSValue.truthy]
  · simp [Bool.not_eq_true] at hobj
    simp [hobj]

/-- C7: with the serialization flag on, `Hash.set(k, v)` followed by
`Hash.get(k)` returns the value itself, because the codec round-trips:
`decode(encode(v)) = v` for every serializable value. -/
theorem c7_hash_set_get_roundtrip :
    (∀ v : Json, Json.parse (Json.stringify v) = some v) ∧
    (∀ (v : Json) (k : String) (h : HashState),
      hashGetJson k (hashSetJson k v h) = some v) := by
  refine ⟨Json.parse_stringify, fun v k h => ?_⟩
  show (match hget k (hset k (Json.stringify v) h) with
        | some raw => Json.parse raw
        | none => some Json.null) = some v
  have : hget k (hset k (Json.stringify v) h) = some (Json.stringify v) := by
    simp [hget, hset]
  rw [this]
  exact Json.parse_stringify v

/-- C8 (counterexample): the claim says `Set.has` resolves to a strict
boolean like `Hash.has`; but `Set.has` forwards the primitive's raw reply,
so on a set containing `"a"` it resolves to the number `1`, which is not a
boolean. -/
theorem c8_setHas_counterexample :
    setHas "a" ["a"] = JSValue.num 1 ∧ (setHas "a" ["a"]).isBool = false := by
  exact ⟨by decide, by decide⟩

/-- C8 (amended): `Hash.has(field)` coerces the `HEXISTS` reply with `!!`
and resolves to a strict boolean (true exactly when the field exists), while
`Set.has(el)` forwards the raw `0`/`1` reply of `SISMEMBER` unchanged and
never resolves to a strict boolean. -/
theorem c8_has_coercion :
    (∀ (k : String) (h : HashState),
      hashHas k h = .bool (h k).isSome ∧ (hashHas k h).isBool = true) ∧
    (∀ (el : String) (s : List String),
      setHas el s = .num (if el ∈ s then 1 else 0) ∧ (setHas el s).isBool = false) := by
  constructor
  · intro k h
    by_cases hk : (h k).isSome <;>
      simp [hashHas, hexistsReply, hk, JSValue.jsNot, JSValue.truthy, JSValue.isBool]
  · intro el s
    exact ⟨rfl, rfl⟩

/-- C9: the value `splice` passes to the bulk-remove command is always the
JSON-encoded sentinel `toJSON('__DELETE__')`, for either flag, while the
marking step writes the raw `'__DELETE__'` literal when the flag is off —
and the two strings differ, so with the flag off the bulk-remove phase looks
for a value the marking phase never wrote. -/
theorem c9_splice_sentinel_mismatch :
    sentinelJson ≠ "__DELETE__" ∧
    (∀ (start : Nat) (dc : Option Int) (items store : List String)
        (out : List String × List String × List RCmd),
      spliceRaw start dc items store = some out →
      (∀ cnt v, RCmd.lrem cnt v ∈ out.2.2 → v = sentinelJson) ∧
      (∀ i v, RCmd.lset i v ∈ out.2.2 → v = "__DELETE__")) ∧
    (∀ (start : Nat) (dc : Option Int) (items : List Json) (store : List String)
        (out : List Json × List String × List RCmd),
      spliceJ start dc items store = some out →
      ∀ cnt v, RCmd.lrem cnt v ∈ out.2.2 → v = sentinelJson) := by
  refine ⟨by decide, ?_, ?_⟩
  · intro start dc items store out hout
    constructor
    · intro cnt v hv
      rcases spliceCore_shape "__DELETE__" start dc items store out hout (RCmd.lrem cnt v) hv with
        ⟨b, e, h⟩ | ⟨i, h⟩ | h | ⟨i, w, h⟩
      · cases h
      · cases h
      · cases h; rfl
      · cases h
    · intro i v hv
      rcases spliceCore_shape "__DELETE__" start dc items store out hout (RCmd.lset i v) hv with
        ⟨b, e, h⟩ | ⟨j, h⟩ | h | ⟨j, w, h⟩
      · cases h
      · cases h; rfl
      · cases h
      · cases h
  · intro start dc items store out hout cnt v hv
    unfold spliceJ at hout
    split at hout
    · split at hout
      · cases hout
        rcases spliceCore_shape sentinelJson start dc (items.map Json.stringify) store _
            (by assumption) (RCmd.lrem cnt v) hv with
          ⟨b, e, h⟩ | ⟨i, h⟩ | h | ⟨i, w, h⟩
        · cases h
        · cases h
        · cases h; rfl
        · cases h
      · cases hout
    · cases hout

/-- C9 (witness): a concrete run with the flag off — the marking command
carries the raw literal, the bulk-remove command carries the encoded
sentinel, and the theorem applied there yields both value equations. -/
theorem c9_splice_witness :
    spliceRaw 1 (some 1) [] ["a", "b", "c"] =
      some (["b"], ["a", "__DELETE__", "c"],
        [RCmd.lrange 1 1, RCmd.lset 1 "__DELETE__", RCmd.lrem 0 sentinelJson]) ∧
    sentinelJson = sentinelJson ∧ ("__DELETE__" : String) = "__DELETE__" := by
  refine ⟨by decide, ?_, ?_⟩
  · exact (c9_splice_sentinel_mismatch.2.1 1 (some 1) [] ["a", "b", "c"]
      (["b"], ["a", "__DELETE__", "c"],
        [RCmd.lrange 1 1, RCmd.lset 1 "__DELETE__", RCmd.lrem 0 sentinelJson])
      (by decide)).1 0 sentinelJson (by decide)
  · exact (c9_splice_sentinel_mismatch.2.1 1 (some 1) [] ["a", "b", "c"]
      (["b"], ["a", "__DELETE__", "c"],
        [RCmd.lrange 1 1, RCmd.lset 1 "__DELETE__", RCmd.lrem 0 sentinelJson])
      (by decide)).2 1 "__DELETE__" (by decide)

/-- C10: the string-type half of the key check (`!key.constructor ===
'String'`) evaluates to false for every key because the expression negates
the constructor before comparing, so the check reduces to plain truthiness:
only a falsy key is rejected, and construction with a truthy non-string key
(a number, say) succeeds. -/
theorem c10_key_type_check_never_fires (c key : JSValue) (flag : Bool) :
    keyTypePart key = false ∧
    keyCheckFails key = !key.truthy ∧
    (c.isObject = true → key.truthy = true → wrapperNew c key flag = .ok ⟨c, key, flag⟩) ∧
    wrapperNew (.obj 0) (.num 42) flag = .ok ⟨.obj 0, .num 42, flag⟩ := by
  refine ⟨keyTypePart_eq_false key, keyCheckFails_eq key, fun hc hk => ?_, ?_⟩
  · unfold wrapperNew
    rw [clientCheckFails_eq, keyCheckFails_eq, hc, hk]
    simp
  · cases flag <;> rfl

/-- C10 (witness): a live client object with the numeric key `42` constructs
successfully, by the theorem applied at that input. -/
theorem c10_key_type_witness :
    (JSValue.obj 0).isObject = true ∧ (JSValue.num 42).truthy = true ∧
    wrapperNew (.obj 0) (.num 42) true = .ok ⟨.obj 0, .num 42, true⟩ :=
  ⟨rfl, by decide,
    (c10_key_type_check_never_fires (.obj 0) (.num 42) true).2.2.1 rfl (by decide)⟩
